import Mathlib

/-!
Verification of the epub→audiobook pipeline core (tts.py, m4b.py, main.py).

The Python source is shallowly embedded: text is modelled as `List Char`
(`String.data`), pure functions become Lean functions, file-system and
subprocess effects become explicit state / effect traces.  Whitespace is
modelled as the ASCII whitespace class `[ \t\n\r\x0b\x0c]` (the ASCII part
of Python's `\s` / `str.strip`); the claims under study only involve ASCII
whitespace.
-/

namespace TTS

/-- Sentence-terminal punctuation, from `_SENTENCE_RE = (?<=[.!?。！？])\s+` in tts.py. -/
def isSentEnd (c : Char) : Bool :=
  c == '.' || c == '!' || c == '?' || c == '。' || c == '！' || c == '？'

/-- Clause punctuation, from `_CLAUSE_RE = (?<=[,;:，；：])\s+` in tts.py. -/
def isClauseEnd (c : Char) : Bool :=
  c == ',' || c == ';' || c == ':' || c == '，' || c == '；' || c == '：'

/-- ASCII whitespace (the ASCII fragment of Python's `\s` and `str.strip`). -/
def isWS (c : Char) : Bool :=
  c == ' ' || c == '\t' || c == '\n' || c == '\r' || c == '\x0b' || c == '\x0c'

/-- Model of `re.split(r"(?<=[X])\s+", text)` as a left-to-right scanner.
`cur` is the current part reversed; `splitting` means we are inside a
whitespace run that follows a boundary character, i.e. inside a regex match.
A trailing match yields a final empty part, exactly like `re.split`. -/
def reSplitGo (isEnd : Char → Bool) : List Char → List Char → Bool → List (List Char)
  | [], _, true => [[]]
  | [], cur, false => [cur.reverse]
  | c :: rest, cur, true =>
      if isWS c then reSplitGo isEnd rest cur true
      else reSplitGo isEnd rest [c] false
  | c :: rest, cur, false =>
      match cur with
      | [] => reSplitGo isEnd rest [c] false
      | h :: t =>
          if isWS c && isEnd h then (h :: t).reverse :: reSplitGo isEnd rest [] true
          else reSplitGo isEnd rest (c :: h :: t) false

/-- Split on whitespace runs preceded by a boundary character (`re.split`). -/
def reSplit (isEnd : Char → Bool) (l : List Char) : List (List Char) :=
  reSplitGo isEnd l [] false

/-- Python `str.strip()` (ASCII whitespace). -/
def stripChars (l : List Char) : List Char :=
  ((l.dropWhile isWS).reverse.dropWhile isWS).reverse

/-- Single-space join of units, Python `" ".join(units)`. -/
def joinSp : List (List Char) → List Char
  | [] => []
  | [u] => u
  | u :: v :: rest => u ++ ' ' :: joinSp (v :: rest)

/-- Accumulator state of `_split_text`: finished chunks (each kept as its
list of joined units), the current buffer `buf`, and the running `length`
variable (which, as in the source, counts only the units' characters, not
the joining spaces). -/
abbrev SplitState := List (List (List Char)) × List (List Char) × Nat

/-- One buffered append in `_split_text`:
`if length + len(u) > max_chars and buf: flush; buf.append(u); length += len(u)`.
`u` is already stripped and non-empty at every call site, as in the source. -/
def pushUnit (maxChars : Nat) : SplitState → List Char → SplitState
  | (chunks, buf, len), u =>
    let st :=
      if len + u.length > maxChars ∧ buf ≠ [] then (chunks ++ [buf], ([] : List (List Char)), 0)
      else (chunks, buf, len)
    (st.1, st.2.1 ++ [u], st.2.2 + u.length)

/-- The clause loop body of `_split_text`: strip, skip empty, then buffered append. -/
def addClause (maxChars : Nat) (st : SplitState) (clause : List Char) : SplitState :=
  let c := stripChars clause
  if c = [] then st else pushUnit maxChars st c

/-- The sentence loop body of `_split_text`. -/
def addSent (maxChars : Nat) (st : SplitState) (sent : List Char) : SplitState :=
  let s := stripChars sent
  if s = [] then st
  else if s.length > maxChars then
    let st1 : SplitState :=
      if st.2.1 ≠ [] then (st.1 ++ [st.2.1], [], 0) else st
    (reSplit isClauseEnd s).foldl (addClause maxChars) st1
  else pushUnit maxChars st s

/-- Model of `_split_text`, with each chunk kept as its list of constituent units
(the source's `buf` at flush time); the emitted chunk string is the
single-space join of those units. -/
def splitChunksU (text : List Char) (maxChars : Nat) : List (List (List Char)) :=
  let st := (reSplit isSentEnd text).foldl (addSent maxChars) ([], [], 0)
  if st.2.1 = [] then st.1 else st.1 ++ [st.2.1]

/-- Model of `_split_text(text, max_chars)` over `List Char`. -/
def splitTextL (text : List Char) (maxChars : Nat) : List (List Char) :=
  (splitChunksU text maxChars).map joinSp

/-- Model of `_split_text(text, max_chars)`. -/
def splitText (text : String) (maxChars : Nat) : List String :=
  (splitTextL text.data maxChars).map String.mk

/-- Constant `_MAX_CHARS = 500` in tts.py. -/
def _MAX_CHARS : Nat := 500

/-! **Chapter artifact file names: `f"chapter_{ch_idx:04d}.wav"` -/

/-- A decimal digit character. -/
def digitChar : Nat → Char
  | 0 => '0' | 1 => '1' | 2 => '2' | 3 => '3' | 4 => '4'
  | 5 => '5' | 6 => '6' | 7 => '7' | 8 => '8' | _ => '9'

/-- Decimal digits of `n`, most significant first; `fuel > n` suffices. -/
def toDecimalAux : Nat → Nat → List Char
  | 0, _ => []
  | fuel + 1, n =>
      if n < 10 then [digitChar n]
      else toDecimalAux fuel (n / 10) ++ [digitChar (n % 10)]

/-- Decimal rendering of a natural number (Python `str(i)` for `i ≥ 0`). -/
def toDecimal (n : Nat) : List Char := toDecimalAux (n + 1) n

/-- Zero-pad to width 4, Python's `{:04d}` for non-negative values. -/
def pad4 (l : List Char) : List Char := List.replicate (4 - l.length) '0' ++ l

/-- Characters of `f"chapter_{i:04d}.wav"`. -/
def chapterNameChars (i : Nat) : List Char :=
  "chapter_".data ++ pad4 (toDecimal i) ++ ".wav".data

/-- The per-chapter artifact file name in tts.py, `f"chapter_{i:04d}.wav"`. -/
def chapterWavName (i : Nat) : String := String.mk (chapterNameChars i)

/-- Numeric value of a digit character. -/
def digitVal (c : Char) : Nat := c.toNat - 48

/-- Value of a decimal digit string (leading zeros allowed). -/
def valOf (l : List Char) : Nat := l.foldl (fun acc c => acc * 10 + digitVal c) 0

/-- Recover the chapter index from an artifact file name by valuing its digits. -/
def nameIdx (l : List Char) : Nat := valOf (l.filter Char.isDigit)

/-! **`synthesise_chapters` (tts.py)

The TTS engine (`model.generate_custom_voice`) is modelled as a
deterministic oracle from a batch of chunk texts to either a list of
per-chunk sample arrays plus a sample rate, or a failure (the `except`
branch).  Audio samples are abstract integers.  The output directory is
modelled as an association list from chapter index to the written
`(samples, sample_rate)` pair: the artifact for index `i` is the file
`chapterWavName i`, and `wav_path.exists()` is a lookup at `i`.
Model loading, `mkdir`, and logging are effect-free in every claim under
study and are not modelled. -/

/-- Dataclass `Chapter` from epub_parser.py. -/
structure Chapter where
  title : String
  text : String
deriving DecidableEq

/-- The synthesis engine: one `generate_custom_voice` call per batch. -/
structure TTSOracle where
  gen : List String → Option (List (List Int) × Nat)

/-- Batch slicing `chunks[b_start : b_start + batch_size]` for
`b_start in range(0, len(chunks), batch_size)`; `bs ≥ 1` (source default 4). -/
def chunkGo (bs : Nat) : List α → List α → Nat → List (List α)
  | [], cur, _ => if cur.isEmpty then [] else [cur.reverse]
  | a :: rest, cur, 0 => cur.reverse :: chunkGo bs rest [a] (bs - 1)
  | a :: rest, cur, cap + 1 => chunkGo bs rest (a :: cur) cap

/-- Split a list into consecutive batches of size `bs`. -/
def chunkList (bs : Nat) (l : List α) : List (List α) :=
  match l with
  | [] => []
  | a :: rest => chunkGo bs rest [a] (bs - 1)

/-- The batches the chapter loop dispatches for one chapter. -/
def batchCalls (bs : Nat) (ch : Chapter) : List (List String) :=
  chunkList bs (splitText ch.text _MAX_CHARS)

/-- The oracle's response to each batch, in dispatch order. -/
def batchResults (o : TTSOracle) (bs : Nat) (ch : Chapter) :
    List (Option (List (List Int) × Nat)) :=
  (batchCalls bs ch).map o.gen

/-- Value of `all_audio` after the batch loop: the wav arrays of the successful
batches, extended in dispatch order (failed batches contribute nothing). -/
def succAudio (o : TTSOracle) (bs : Nat) (ch : Chapter) : List (List Int) :=
  (batchResults o bs ch).flatMap fun r =>
    match r with
    | some (wavs, _) => wavs
    | none => []

/-- Value of `sr` after the batch loop: set by each successful batch, so the last
success wins; `none` if every batch failed. -/
def lastRate (o : TTSOracle) (bs : Nat) (ch : Chapter) : Option Nat :=
  (batchResults o bs ch).foldl
    (fun acc r => match r with | some (_, rate) => some rate | none => acc) none

/-- What synthesising one chapter produces:
`none` when `not all_audio or sr is None` (the chapter-skip branch),
otherwise the concatenated samples (`np.concatenate(all_audio)`) and rate. -/
def chapterOutcome (o : TTSOracle) (bs : Nat) (ch : Chapter) : Option (List Int × Nat) :=
  match succAudio o bs ch, lastRate o bs ch with
  | [], _ => none
  | _ :: _, none => none
  | a :: rest, some rate => some (((a :: rest)).flatten, rate)

/-- The output directory: chapter index ↦ written `(samples, sample_rate)`. -/
abbrev FS := List (Nat × (List Int × Nat))

/-- Result of one iteration of the chapter loop: the updated directory, the
path appended to `wav_paths` (if any), and the batches dispatched to the
engine (empty when the resume check fires — no segmentation, no synthesis). -/
structure ChapterStep where
  fs : FS
  path : Option String
  calls : List (List String)
deriving DecidableEq

/-- One iteration of the chapter loop of `synthesise_chapters`. -/
def processChapter (o : TTSOracle) (bs : Nat) (fs : FS) (idx : Nat) (ch : Chapter) :
    ChapterStep :=
  if (fs.lookup idx).isSome then
    { fs := fs, path := some (chapterWavName idx), calls := [] }
  else
    match chapterOutcome o bs ch with
    | some sampR =>
        { fs := (idx, sampR) :: fs
          path := some (chapterWavName idx)
          calls := batchCalls bs ch }
    | none => { fs := fs, path := none, calls := batchCalls bs ch }

/-- A whole run of `synthesise_chapters`: final directory, returned
`wav_paths`, and the per-chapter list of dispatched batches. -/
structure SynthRun where
  fs : FS
  paths : List String
  callLog : List (Nat × List (List String))
deriving DecidableEq

/-- The chapter loop, starting at chapter index `idx`. -/
def synthGo (o : TTSOracle) (bs : Nat) : Nat → List Chapter → FS → SynthRun
  | _, [], fs => { fs := fs, paths := [], callLog := [] }
  | idx, ch :: rest, fs =>
      let st := processChapter o bs fs idx ch
      let r := synthGo o bs (idx + 1) rest st.fs
      { fs := r.fs
        paths := match st.path with | some p => p :: r.paths | none => r.paths
        callLog := (idx, st.calls) :: r.callLog }

/-- Model of `synthesise_chapters(chapters, output_dir)` with engine oracle `o` and
batch size `bs`, starting from on-disk state `fs`. -/
def synthesiseChapters (o : TTSOracle) (bs : Nat) (chapters : List Chapter) (fs : FS) :
    SynthRun :=
  synthGo o bs 0 chapters fs

/-- main.py line 148: `titles = [ch.title for ch in chapters[: len(wav_paths)]]`. -/
def mainTitles (chapters : List Chapter) (wavPaths : List String) : List String :=
  (chapters.take wavPaths.length).map Chapter.title

end TTS

namespace M4B
open TTS

/-! **`_escape_ffmeta` (m4b.py) -/

/-- Python `value.replace(c, "\\" + c)` for a single-character needle. -/
def replaceChar (c : Char) (l : List Char) : List Char :=
  l.flatMap fun x => if x = c then ['\\', c] else [x]

/-- Function `_escape_ffmeta`: the chained replaces, in source order
`("\\", "=", ";", "#", "\n")`. -/
def escapeFFMetaL (l : List Char) : List Char :=
  (['\\', '=', ';', '#', '\n']).foldl (fun acc c => replaceChar c acc) l

/-- Function `_escape_ffmeta` on strings. -/
def escapeFFMeta (s : String) : String := String.mk (escapeFFMetaL s.data)

/-- The five FFMETADATA special characters. -/
def isFFSpecial (c : Char) : Bool :=
  c == '\\' || c == '=' || c == ';' || c == '#' || c == '\n'

/-- Single left-to-right escaping pass over the original string
(the spec's description of the escaping rule). -/
def escapeSinglePass (l : List Char) : List Char :=
  l.flatMap fun c => if isFFSpecial c then ['\\', c] else [c]

/-- Left-to-right scan for an unescaped special character; the flag records
that the previous character was an escaping backslash, which consumes the
current character.  A trailing lone backslash counts as unescaped. -/
def unescGo : List Char → Bool → Bool
  | [], esc => esc
  | _ :: rest, true => unescGo rest false
  | c :: rest, false =>
      if c = '\\' then unescGo rest true
      else isFFSpecial c || unescGo rest false

/-- Test whether the text contains a special character not consumed as the
second character of a backslash-escape pair (scanning left to right). -/
def unescapedSpecial (l : List Char) : Bool := unescGo l false

/-! **`build_m4b` (m4b.py)

`subprocess.run` is modelled by a `MuxOutcome` (return code and captured
stderr) supplied as input; `sf.info`-based duration probing by a function
from path to integer milliseconds; `Path.resolve()` as the identity (paths
are taken as already absolute).  Side effects are recorded as an ordered
trace; `tempfile` names are abstracted away, keeping only which file is
written/unlinked. -/

/-- Chapter spans: the cursor loop
`for wp, title in zip(wav_paths, chapter_titles)` building
`(title, cursor_ms, cursor_ms + dur)`. -/
def chapterSpansGo (probe : String → Nat) :
    List (String × String) → Nat → List (String × Nat × Nat)
  | [], _ => []
  | (wp, title) :: rest, cursor =>
      let dur := probe wp
      (title, cursor, cursor + dur) :: chapterSpansGo probe rest (cursor + dur)

/-- Value of `chapter_spans` in `build_m4b` (cursor initialised to 0). -/
def chapterSpans (probe : String → Nat) (pairs : List (String × String)) :
    List (String × Nat × Nat) :=
  chapterSpansGo probe pairs 0

/-- The three writes for one `[CHAPTER]` block, concatenated.
`span = (title, start, end)`. -/
def ffBlockL (span : String × Nat × Nat) : List Char :=
  "[CHAPTER]\nTIMEBASE=1/1000\n".data ++
    ("START=".data ++ toDecimal span.2.1 ++ "\nEND=".data ++ toDecimal span.2.2 ++ "\n".data) ++
    ("title=".data ++ escapeFFMetaL span.1.data ++ "\n\n".data)

/-- The header writes of the metadata file: magic line, `title=`,
conditional `artist=`, and the separating blank line. -/
def ffHeaderL (bookTitle bookAuthor : String) : List Char :=
  ";FFMETADATA1\n".data ++
    ("title=".data ++ escapeFFMetaL bookTitle.data ++ "\n".data) ++
    (if bookAuthor ≠ "" then "artist=".data ++ escapeFFMetaL bookAuthor.data ++ "\n".data
     else []) ++
    "\n".data

/-- The full FFMETADATA1 file contents, written header first then one block
per span, exactly as the write loop in `build_m4b`. -/
def renderFFMetaL (bookTitle bookAuthor : String) (spans : List (String × Nat × Nat)) :
    List Char :=
  spans.foldl (fun acc sp => acc ++ ffBlockL sp) (ffHeaderL bookTitle bookAuthor)

/-- A line of text terminated by a newline, for the spec-side grammar. -/
def lineJoin (ls : List (List Char)) : List Char := ls.flatMap (· ++ ['\n'])

/-- Expansion of one path character under the single-quote escaping
`replace(chr(39), chr(39) + backslash + chr(39) + chr(39))` of m4b.py. -/
def quoteEsc (c : Char) : List Char :=
  if c = '\'' then ['\'', '\\', '\'', '\''] else [c]

/-- One quote-escaped concat entry, `file <quote><safe path><quote>` plus
newline, with `safe = str(wp.resolve())` quote-escaped (`resolve` modelled
as the identity on the already-absolute path strings). -/
def concatLineL (p : String) : List Char :=
  "file ".data ++ '\'' :: (p.data.flatMap quoteEsc ++ ['\'', '\n'])

/-- The concat list file contents. -/
def concatContentL (wavPaths : List String) : List Char :=
  wavPaths.flatMap concatLineL

/-- Errors `build_m4b` can raise. -/
inductive MuxError where
  | lengthMismatch
  | ffmpegFailed (code : Nat)
deriving DecidableEq

/-- The message of the raised exception. -/
def muxErrorMessage : MuxError → String
  | .lengthMismatch => "wav_paths and chapter_titles must have the same length"
  | .ffmpegFailed code => "ffmpeg exited with code " ++ String.mk (toDecimal code)

/-- Side effects of `build_m4b`, in program order. -/
inductive BuildEffect where
  | mkdirOutputParent
  | writeMetaFile (content : List Char)
  | writeConcatFile (content : List Char)
  | runFFmpeg
  | logStderr (s : String)
  | unlinkMetaFile
  | unlinkConcatFile
deriving DecidableEq

/-- The external muxer's behaviour on this run. -/
structure MuxOutcome where
  returncode : Nat
  stderr : String
deriving DecidableEq

/-- Result of `build_m4b`: the returned path or raised error, plus the
ordered side-effect trace. -/
structure BuildResult where
  result : Except MuxError String
  effects : List BuildEffect

/-- Model of `build_m4b(wav_paths, chapter_titles, output_path, book_title=…,
book_author=…)`: length check, mkdir, span computation, metadata and concat
file writes, ffmpeg invocation, and the `finally` cleanup. -/
def build_m4b (wavPaths : List String) (chapterTitles : List String)
    (outputPath : String) (bookTitle : String) (bookAuthor : String)
    (probe : String → Nat) (mux : MuxOutcome) : BuildResult :=
  if wavPaths.length ≠ chapterTitles.length then
    { result := .error .lengthMismatch, effects := [] }
  else
    let spans := chapterSpans probe (wavPaths.zip chapterTitles)
    let meta := renderFFMetaL bookTitle bookAuthor spans
    let concat := concatContentL wavPaths
    let pre : List BuildEffect :=
      [.mkdirOutputParent, .writeMetaFile meta, .writeConcatFile concat, .runFFmpeg]
    if mux.returncode ≠ 0 then
      { result := .error (.ffmpegFailed mux.returncode)
        effects := pre ++ [.logStderr mux.stderr, .unlinkMetaFile, .unlinkConcatFile] }
    else
      { result := .ok outputPath
        effects := pre ++ [.unlinkMetaFile, .unlinkConcatFile] }

/-- Substring test (for stating what the raised message does not contain). -/
def containsSub (sub l : List Char) : Bool :=
  l.tails.any fun t => sub.isPrefixOf t

end M4B

namespace TTS

/-! **Whitespace-delimited word sequences

`wordsOfL t` is the list of maximal non-whitespace runs of `t`, i.e.
Python's `t.split()`.  Two texts are equal up to whitespace normalisation
exactly when their word sequences coincide; this is the notion used to
state that segmentation preserves content and order. -/

/-- Scanner for `wordsOfL`; `cur` is the current word reversed. -/
def wordsGo : List Char → List Char → List (List Char)
  | [], cur => if cur = [] then [] else [cur.reverse]
  | c :: rest, cur =>
      if isWS c then
        if cur = [] then wordsGo rest [] else cur.reverse :: wordsGo rest []
      else wordsGo rest (c :: cur)

/-- The maximal non-whitespace runs of a text, in order. -/
def wordsOfL (l : List Char) : List (List Char) := wordsGo l []

/-- The atomic units `_split_text` buffers for one sentence: the stripped
sentence itself if within bounds, else its stripped non-empty clauses. -/
def unitsOfSent (maxChars : Nat) (sent : List Char) : List (List Char) :=
  let s := stripChars sent
  if s = [] then []
  else if s.length > maxChars then
    (reSplit isClauseEnd s).filterMap fun cl =>
      let c := stripChars cl
      if c = [] then none else some c
  else [s]

/-- All units of a text, in reading order. -/
def unitsOf (text : List Char) (maxChars : Nat) : List (List Char) :=
  (reSplit isSentEnd text).flatMap (unitsOfSent maxChars)

end TTS

namespace M4B
open TTS

/-! **Spec-side rendering of the §4.4 metadata grammar, for comparison with
the write sequence of `build_m4b`** -/

/-- One `[CHAPTER]` block of the spec grammar, line by line, followed by
the separating blank line. -/
def specBlockL (span : String × Nat × Nat) : List Char :=
  lineJoin
    ["[CHAPTER]".data,
     "TIMEBASE=1/1000".data,
     "START=".data ++ toDecimal span.2.1,
     "END=".data ++ toDecimal span.2.2,
     "title=".data ++ escapeFFMetaL span.1.data,
     []]

/-- The header of the spec grammar: magic line, `title=` line, `artist=`
line present exactly when the author is non-empty, then a blank line. -/
def specHeaderL (bookTitle bookAuthor : String) : List Char :=
  lineJoin
    ([";FFMETADATA1".data, "title=".data ++ escapeFFMetaL bookTitle.data] ++
      (if bookAuthor ≠ "" then ["artist=".data ++ escapeFFMetaL bookAuthor.data] else []) ++
      [[]])

/-- Sum of the probed durations of the first `i` listed files. -/
def durBefore (probe : String → Nat) (pairs : List (String × String)) (i : Nat) : Nat :=
  ((pairs.take i).map fun pr => probe pr.1).sum

end M4B

namespace TTS

/-! **Concrete scenario and witness inputs** -/

/-- Two-chapter book: the first chapter's synthesis fails entirely, the
second succeeds (see the oracle below). -/
def c1Chapters : List Chapter := [⟨"A", "x."⟩, ⟨"B", "y."⟩]

/-- Engine that succeeds only on the batch of chapter `B`. -/
def c1Oracle : TTSOracle :=
  ⟨fun b => if b = ["y."] then some ([[1, 2, 3]], 24000) else none⟩

/-- Duration probe used in the concrete timeline evaluations. -/
def constDur : String → Nat := fun _ => 125

/-- Engine whose every call fails. -/
def failOracle : TTSOracle := ⟨fun _ => none⟩

/-- Engine that succeeds on every batch with a fixed rate, one wav per text. -/
def okOracle : TTSOracle := ⟨fun b => some (b.map fun _ => [7], 16000)⟩

end TTS



namespace M4B
open TTS

/-! **Lemmas about `_escape_ffmeta`** -/

lemma replaceChar_append (c : Char) (a b : List Char) :
    replaceChar c (a ++ b) = replaceChar c a ++ replaceChar c b := by
  simp [replaceChar]

lemma escapeFFMetaL_unfold (l : List Char) :
    escapeFFMetaL l =
      replaceChar '\n' (replaceChar '#' (replaceChar ';' (replaceChar '='
        (replaceChar '\\' l)))) := rfl

lemma escapeFFMetaL_append (a b : List Char) :
    escapeFFMetaL (a ++ b) = escapeFFMetaL a ++ escapeFFMetaL b := by
  simp [escapeFFMetaL_unfold, replaceChar_append]

lemma escapeFFMetaL_single (x : Char) :
    escapeFFMetaL [x] = if isFFSpecial x then ['\\', x] else [x] := by
  by_cases h1 : x = '\\'
  · subst h1; decide
  by_cases h2 : x = '='
  · subst h2; decide
  by_cases h3 : x = ';'
  · subst h3; decide
  by_cases h4 : x = '#'
  · subst h4; decide
  by_cases h5 : x = '\n'
  · subst h5; decide
  have e1 : (x == '\\') = false := beq_eq_false_iff_ne.mpr h1
  have e2 : (x == '=') = false := beq_eq_false_iff_ne.mpr h2
  have e3 : (x == ';') = false := beq_eq_false_iff_ne.mpr h3
  have e4 : (x == '#') = false := beq_eq_false_iff_ne.mpr h4
  have e5 : (x == '\n') = false := beq_eq_false_iff_ne.mpr h5
  simp [escapeFFMetaL_unfold, replaceChar, isFFSpecial, e1, e2, e3, e4, e5,
    h1, h2, h3, h4, h5]

lemma escapeFFMetaL_eq_singlePass (l : List Char) :
    escapeFFMetaL l = escapeSinglePass l := by
  induction l with
  | nil => rfl
  | cons x l ih =>
      have hx : x :: l = [x] ++ l := rfl
      rw [hx, escapeFFMetaL_append, escapeFFMetaL_single]
      simp [escapeSinglePass, ih]

lemma unescapedSpecial_singlePass (l : List Char) :
    unescapedSpecial (escapeSinglePass l) = false := by
  induction l with
  | nil => rfl
  | cons c l ih =>
      have hstep : escapeSinglePass (c :: l) =
          (if isFFSpecial c then ['\\', c] else [c]) ++ escapeSinglePass l := by
        simp [escapeSinglePass]
      by_cases h : isFFSpecial c = true
      · rw [hstep, if_pos h]
        simpa [unescapedSpecial, unescGo] using ih
      · have hc : c ≠ '\\' := by
          intro e; subst e; simp [isFFSpecial] at h
        have hb : isFFSpecial c = false := by
          cases hv : isFFSpecial c
          · rfl
          · exact absurd hv h
        rw [hstep, if_neg h]
        simpa [unescapedSpecial, unescGo, hc, hb] using ih

end M4B

open TTS M4B in
/-- C7: `_escape_ffmeta` is equivalent to a single left-to-right pass over
the original string that replaces each occurrence of each of the five
characters backslash, `=`, `;`, `#`, newline with a backslash followed by
that character; consequently the escaped text contains no unescaped
occurrence of any of those characters. -/
theorem c7_escape_single_pass (l : List Char) :
    escapeFFMetaL l = escapeSinglePass l ∧
    unescapedSpecial (escapeFFMetaL l) = false := by
  refine ⟨escapeFFMetaL_eq_singlePass l, ?_⟩
  rw [escapeFFMetaL_eq_singlePass]
  exact unescapedSpecial_singlePass l

open TTS in
/-- C2 (failing-input evaluation): with `maxChars = 6`, the two sentences
of `"aa. bb."` (each of length 3, so each within the bound) are buffered
into one chunk whose single-space join has length 7 > 6; the oversized
segment consists of two units, neither exceeding the bound, so it is not
the claimed single-unsplittable-clause exception. -/
theorem c2_join_exceeds_bound :
    splitText "aa. bb." 6 = ["aa. bb."] ∧
    ("aa. bb.").length = 7 ∧
    splitChunksU "aa. bb.".data 6 = [["aa.".data, "bb.".data]] ∧
    (∀ u ∈ ["aa.".data, "bb.".data], u.length ≤ 6) := by
  refine ⟨by decide, by decide, by decide, by decide⟩

open TTS M4B in
/-- C1 (failing-input evaluation): chapter 0 (titled `A`) fails synthesis
entirely and is skipped, chapter 1 (titled `B`) is emitted; yet
main.py's `titles = [ch.title for ch in chapters[: len(wav_paths)]]` takes
the *prefix* of the original chapter list, so the single chapter marker is
titled `A` — the title of the original list's first chapter — while the
single emitted audio file is chapter 1's, titled `B`. -/
theorem c1_marker_titles_from_original_list :
    (synthesiseChapters c1Oracle 4 c1Chapters []).paths = [chapterWavName 1] ∧
    (synthesiseChapters c1Oracle 4 c1Chapters []).fs.lookup 0 = none ∧
    (synthesiseChapters c1Oracle 4 c1Chapters []).fs.lookup 1 = some ([1, 2, 3], 24000) ∧
    mainTitles c1Chapters (synthesiseChapters c1Oracle 4 c1Chapters []).paths = ["A"] ∧
    (chapterSpans constDur
        ((synthesiseChapters c1Oracle 4 c1Chapters []).paths.zip
          (mainTitles c1Chapters (synthesiseChapters c1Oracle 4 c1Chapters []).paths))).map
        Prod.fst = ["A"] ∧
    (c1Chapters.get? 1).map Chapter.title = some "B" ∧
    ("A" : String) ≠ "B" := by
  refine ⟨by decide, by decide, by decide, by decide, by decide, by decide, by decide⟩

open TTS M4B in
/-- C10: when `wav_paths` and `chapter_titles` have different lengths,
`build_m4b` raises `ValueError` with an empty side-effect trace (no
directory created, no file written, no muxer run); with equal lengths the
check passes — the result is never the length error and execution reaches
the first side effect, the output-directory `mkdir`. -/
theorem c10_length_guard (wavPaths chapterTitles : List String)
    (outputPath bookTitle bookAuthor : String) (probe : String → Nat)
    (mux : MuxOutcome) :
    (wavPaths.length ≠ chapterTitles.length →
       build_m4b wavPaths chapterTitles outputPath bookTitle bookAuthor probe mux =
         ⟨.error .lengthMismatch, []⟩) ∧
    (wavPaths.length = chapterTitles.length →
       (build_m4b wavPaths chapterTitles outputPath bookTitle bookAuthor probe mux).result ≠
           Except.error MuxError.lengthMismatch ∧
       (build_m4b wavPaths chapterTitles outputPath bookTitle bookAuthor
           probe mux).effects.head? = some .mkdirOutputParent) := by
  constructor
  · intro h; simp [build_m4b, h]
  · intro h
    have hne : ¬wavPaths.length ≠ chapterTitles.length := by simp [h]
    by_cases hm : mux.returncode ≠ 0 <;> simp [build_m4b, hne, hm]

open TTS M4B in
/-- Witness for C10 at a concrete mismatched input. -/
theorem c10_length_guard_witness :
    (["a.wav"].length ≠ ([] : List String).length) ∧
    build_m4b ["a.wav"] [] "out.m4b" "T" "" constDur ⟨0, ""⟩ =
      ⟨.error .lengthMismatch, []⟩ :=
  ⟨by decide, (c10_length_guard ["a.wav"] [] "out.m4b" "T" "" constDur ⟨0, ""⟩).1 (by decide)⟩

open TTS M4B in
/-- C9 (counterexample to the claim as stated): when the muxer exits with
code 1 and captured stderr `boom`, the raised error carries only the exit
code — neither the error value nor its message contains the diagnostic
output, which is only logged. -/
theorem c9_error_without_stderr :
    (build_m4b ["a.wav"] ["A"] "out.m4b" "T" "" constDur ⟨1, "boom"⟩).result =
      .error (.ffmpegFailed 1) ∧
    muxErrorMessage (.ffmpegFailed 1) = "ffmpeg exited with code 1" ∧
    containsSub "boom".data (muxErrorMessage (.ffmpegFailed 1)).data = false ∧
    BuildEffect.logStderr "boom" ∈
      (build_m4b ["a.wav"] ["A"] "out.m4b" "T" "" constDur ⟨1, "boom"⟩).effects := by
  refine ⟨rfl, by decide, by decide, by decide⟩

open TTS M4B in
/-- C9 (amended): on a non-zero muxer exit, `build_m4b` raises an error
carrying the exit code, after logging the captured stderr; and whether the
muxer fails or succeeds, the temporary metadata and concat-list files are
deleted (the `finally` block) before the call returns or the error
propagates. -/
theorem c9_mux_failure_cleanup (wavPaths chapterTitles : List String)
    (outputPath bookTitle bookAuthor : String) (probe : String → Nat)
    (mux : MuxOutcome) (h : wavPaths.length = chapterTitles.length) :
    (mux.returncode ≠ 0 →
       (build_m4b wavPaths chapterTitles outputPath bookTitle bookAuthor
           probe mux).result = .error (.ffmpegFailed mux.returncode) ∧
       BuildEffect.logStderr mux.stderr ∈
         (build_m4b wavPaths chapterTitles outputPath bookTitle bookAuthor
           probe mux).effects) ∧
    (∃ pre, (build_m4b wavPaths chapterTitles outputPath bookTitle bookAuthor
        probe mux).effects =
        pre ++ [BuildEffect.unlinkMetaFile, BuildEffect.unlinkConcatFile]) := by
  have hne : ¬wavPaths.length ≠ chapterTitles.length := by simp [h]
  by_cases hm : mux.returncode ≠ 0
  · refine ⟨fun _ => ⟨?_, ?_⟩, ?_⟩
    · simp [build_m4b, hne, hm]
    · simp [build_m4b, hne, hm]
    · refine ⟨[BuildEffect.mkdirOutputParent,
        BuildEffect.writeMetaFile (renderFFMetaL bookTitle bookAuthor
          (chapterSpans probe (wavPaths.zip chapterTitles))),
        BuildEffect.writeConcatFile (concatContentL wavPaths),
        BuildEffect.runFFmpeg, BuildEffect.logStderr mux.stderr], ?_⟩
      simp [build_m4b, hne, hm]
  · refine ⟨fun hx => absurd hx hm, ?_⟩
    refine ⟨[BuildEffect.mkdirOutputParent,
      BuildEffect.writeMetaFile (renderFFMetaL bookTitle bookAuthor
        (chapterSpans probe (wavPaths.zip chapterTitles))),
      BuildEffect.writeConcatFile (concatContentL wavPaths),
      BuildEffect.runFFmpeg], ?_⟩
    simp [build_m4b, hne, hm]

open TTS M4B in
/-- Witness for the amended C9 at a concrete failing muxer. -/
theorem c9_mux_failure_cleanup_witness :
    (["a.wav"].length = ["A"].length) ∧
    (build_m4b ["a.wav"] ["A"] "o.m4b" "T" "" constDur ⟨2, "x"⟩).result =
      .error (.ffmpegFailed 2) ∧
    (∃ pre, (build_m4b ["a.wav"] ["A"] "o.m4b" "T" "" constDur ⟨2, "x"⟩).effects =
        pre ++ [BuildEffect.unlinkMetaFile, BuildEffect.unlinkConcatFile]) := by
  have h := c9_mux_failure_cleanup ["a.wav"] ["A"] "o.m4b" "T" "" constDur ⟨2, "x"⟩ rfl
  exact ⟨rfl, (h.1 (by decide)).1, h.2⟩

namespace M4B

/-! **Closed form of the chapter-span cursor loop** -/

lemma durBefore_succ (probe : String → Nat) (pairs : List (String × String))
    (i : Nat) (pri : String × String) (hpi : pairs[i]? = some pri) :
    durBefore probe pairs (i + 1) = durBefore probe pairs i + probe pri.1 := by
  simp [durBefore, List.take_succ, hpi]

lemma chapterSpansGo_getElem (probe : String → Nat) :
    ∀ (pairs : List (String × String)) (cursor i : Nat),
      (chapterSpansGo probe pairs cursor)[i]? =
        pairs[i]?.map fun pr =>
          (pr.2, cursor + durBefore probe pairs i,
            cursor + durBefore probe pairs i + probe pr.1) := by
  intro pairs
  induction pairs with
  | nil => intro cursor i; simp [chapterSpansGo]
  | cons p rest ih =>
      intro cursor i
      cases i with
      | zero => simp [chapterSpansGo, durBefore]
      | succ m =>
          have hd : durBefore probe (p :: rest) (m + 1) =
              probe p.1 + durBefore probe rest m := by
            simp [durBefore, List.take_succ_cons]
          simp only [chapterSpansGo, List.getElem?_cons_succ, hd]
          rw [ih]
          cases h : rest[m]? with
          | none => simp
          | some pr => simp [Nat.add_assoc]

end M4B

open M4B in
/-- C5: for a non-empty list of emitted chapters, the spans computed by the
cursor loop of `build_m4b` start at 0, are contiguous (each span's end is
the next span's start), and each span's end is its start plus that
chapter's probed duration. -/
theorem c5_timeline_contiguous (probe : String → Nat) (pairs : List (String × String))
    (hne : pairs ≠ []) :
    (∃ s : String × Nat × Nat, (chapterSpans probe pairs)[0]? = some s ∧ s.2.1 = 0) ∧
    (∀ (i : Nat) (si sj : String × Nat × Nat), (chapterSpans probe pairs)[i]? = some si →
        (chapterSpans probe pairs)[i + 1]? = some sj → si.2.2 = sj.2.1) ∧
    (∀ (i : Nat) (si : String × Nat × Nat) (pri : String × String),
        (chapterSpans probe pairs)[i]? = some si →
        pairs[i]? = some pri → si.2.2 = si.2.1 + probe pri.1) := by
  refine ⟨?_, ?_, ?_⟩
  · obtain ⟨p, rest, rfl⟩ : ∃ p rest, pairs = p :: rest := by
      cases pairs with
      | nil => exact absurd rfl hne
      | cons a b => exact ⟨a, b, rfl⟩
    refine ⟨(p.2, 0, probe p.1), ?_, rfl⟩
    rw [chapterSpans, chapterSpansGo_getElem]
    simp [durBefore]
  · intro i si sj hi hj
    rw [chapterSpans, chapterSpansGo_getElem] at hi hj
    cases hpi : pairs[i]? with
    | none => rw [hpi] at hi; simp at hi
    | some pri =>
        cases hpj : pairs[i + 1]? with
        | none => rw [hpj] at hj; simp at hj
        | some prj =>
            rw [hpi] at hi
            rw [hpj] at hj
            simp at hi hj
            rw [← hi, ← hj]
            simp [durBefore_succ probe pairs i pri hpi, Nat.add_assoc]
  · intro i si pri hi hpi
    rw [chapterSpans, chapterSpansGo_getElem, hpi] at hi
    simp at hi
    rw [← hi]

open M4B TTS in
/-- Witness for C5 at a concrete two-chapter list. -/
theorem c5_timeline_contiguous_witness :
    ([("a.wav", "A"), ("b.wav", "B")] ≠ ([] : List (String × String))) ∧
    (∃ s : String × Nat × Nat,
      (chapterSpans constDur [("a.wav", "A"), ("b.wav", "B")])[0]? = some s ∧
      s.2.1 = 0) := by
  have h := c5_timeline_contiguous constDur [("a.wav", "A"), ("b.wav", "B")] (by decide)
  exact ⟨by decide, h.1⟩

namespace M4B

/-! **The write sequence of the metadata file matches the spec grammar** -/

lemma foldl_ffBlocks (spans : List (String × Nat × Nat)) (acc : List Char) :
    spans.foldl (fun a sp => a ++ ffBlockL sp) acc = acc ++ spans.flatMap ffBlockL := by
  induction spans generalizing acc with
  | nil => simp
  | cons sp rest ih => simp [ih, List.append_assoc]

lemma ffBlockL_eq_specBlockL (sp : String × Nat × Nat) : ffBlockL sp = specBlockL sp := by
  have e1 : "[CHAPTER]\nTIMEBASE=1/1000\n".data =
      "[CHAPTER]".data ++ ['\n'] ++ ("TIMEBASE=1/1000".data ++ ['\n']) := by decide
  have e2 : "\nEND=".data = '\n' :: "END=".data := by decide
  have e3 : ("\n".data : List Char) = ['\n'] := by decide
  have e4 : ("\n\n".data : List Char) = ['\n', '\n'] := by decide
  simp [ffBlockL, specBlockL, lineJoin, e1, e2, e3, e4, List.append_assoc]

lemma ffHeaderL_eq_specHeaderL (bookTitle bookAuthor : String) :
    ffHeaderL bookTitle bookAuthor = specHeaderL bookTitle bookAuthor := by
  have e1 : (";FFMETADATA1\n".data : List Char) = ";FFMETADATA1".data ++ ['\n'] := by decide
  have e2 : ("\n".data : List Char) = ['\n'] := by decide
  by_cases hba : bookAuthor = ""
  · simp [ffHeaderL, specHeaderL, lineJoin, hba, e1, e2, List.append_assoc]
  · simp [ffHeaderL, specHeaderL, lineJoin, hba, e1, e2, List.append_assoc]

end M4B

open M4B in
/-- C8: the metadata text written by `build_m4b` is exactly the spec
grammar: the `;FFMETADATA1` line, the `title=` line with the escaped book
title, an `artist=` line with the escaped author present iff the author is
non-empty, a blank line, then one `[CHAPTER]` block per marker consisting
of `[CHAPTER]`, `TIMEBASE=1/1000`, integer-millisecond `START=` and `END=`
lines and the escaped marker title, each block terminated by a blank
line. -/
theorem c8_metadata_grammar (bookTitle bookAuthor : String)
    (spans : List (String × Nat × Nat)) :
    renderFFMetaL bookTitle bookAuthor spans =
      specHeaderL bookTitle bookAuthor ++ spans.flatMap specBlockL := by
  rw [renderFFMetaL, foldl_ffBlocks, ffHeaderL_eq_specHeaderL]
  have hfb : ffBlockL = specBlockL := funext ffBlockL_eq_specBlockL
  rw [hfb]

namespace TTS

/-! **Injectivity of the artifact naming scheme** -/

lemma digitVal_digitChar (n : Nat) (h : n < 10) : digitVal (digitChar n) = n := by
  interval_cases n <;> decide

lemma digitChar_isDigit (n : Nat) : (digitChar n).isDigit = true := by
  unfold digitChar
  split <;> decide

lemma valOf_append_single (a : List Char) (c : Char) :
    valOf (a ++ [c]) = valOf a * 10 + digitVal c := by
  simp [valOf, List.foldl_append]

lemma valOf_toDecimalAux : ∀ fuel n, n < fuel → valOf (toDecimalAux fuel n) = n := by
  intro fuel
  induction fuel with
  | zero => intro n h; omega
  | succ fuel ih =>
      intro n h
      by_cases h10 : n < 10
      · have hv : digitVal (digitChar n) = n := digitVal_digitChar n h10
        simp [toDecimalAux, h10, valOf, hv]
      · have hdiv : n / 10 < n := Nat.div_lt_self (by omega) (by omega)
        have hfuel : n / 10 < fuel := by omega
        have hmod : n % 10 < 10 := Nat.mod_lt _ (by omega)
        simp only [toDecimalAux, h10, if_false]
        rw [valOf_append_single, ih _ hfuel, digitVal_digitChar _ hmod]
        omega

lemma valOf_toDecimal (n : Nat) : valOf (toDecimal n) = n :=
  valOf_toDecimalAux (n + 1) n (Nat.lt_succ_self n)

lemma toDecimalAux_digits : ∀ fuel n c, c ∈ toDecimalAux fuel n → c.isDigit = true := by
  intro fuel
  induction fuel with
  | zero => intro n c h; simp [toDecimalAux] at h
  | succ fuel ih =>
      intro n c h
      by_cases h10 : n < 10
      · simp [toDecimalAux, h10] at h
        subst h; exact digitChar_isDigit n
      · simp [toDecimalAux, h10] at h
        rcases h with h | h
        · exact ih _ _ h
        · subst h; exact digitChar_isDigit _

lemma toDecimal_digits (n : Nat) (c : Char) (h : c ∈ toDecimal n) : c.isDigit = true :=
  toDecimalAux_digits (n + 1) n c h

lemma valOf_cons_zero (x : List Char) : valOf ('0' :: x) = valOf x := by
  have h0 : digitVal '0' = 0 := by decide
  simp [valOf, h0]

lemma valOf_replicate_zero (k : Nat) (l : List Char) :
    valOf (List.replicate k '0' ++ l) = valOf l := by
  induction k with
  | zero => simp
  | succ k ih => rw [List.replicate_succ, List.cons_append, valOf_cons_zero, ih]

lemma valOf_pad4 (l : List Char) : valOf (pad4 l) = valOf l := by
  rw [pad4, valOf_replicate_zero]

lemma pad4_digits (l : List Char) (h : ∀ c ∈ l, c.isDigit = true) :
    ∀ c ∈ pad4 l, c.isDigit = true := by
  intro c hc
  rw [pad4] at hc
  rcases List.mem_append.mp hc with hc | hc
  · have : c = '0' := List.eq_of_mem_replicate hc
    subst this; decide
  · exact h c hc

lemma nameIdx_chapterNameChars (i : Nat) : nameIdx (chapterNameChars i) = i := by
  have h1 : "chapter_".data.filter Char.isDigit = [] := by decide
  have h2 : ".wav".data.filter Char.isDigit = [] := by decide
  have h3 : (pad4 (toDecimal i)).filter Char.isDigit = pad4 (toDecimal i) :=
    List.filter_eq_self.mpr (pad4_digits _ (toDecimal_digits i))
  rw [nameIdx, chapterNameChars]
  rw [List.filter_append, List.filter_append, h1, h2, h3]
  simp [valOf_pad4, valOf_toDecimal]

lemma chapterNameChars_inj : Function.Injective chapterNameChars := by
  intro a b h
  have := congrArg nameIdx h
  simpa [nameIdx_chapterNameChars] using this

lemma chapterWavName_inj : Function.Injective chapterWavName := by
  intro a b h
  exact chapterNameChars_inj (congrArg String.data h)

end TTS

namespace TTS

/-! **Behaviour of the chapter loop** -/

lemma lookup_cons_self (idx : Nat) (e : List Int × Nat) (fs : FS) :
    ((idx, e) :: fs).lookup idx = some e := by
  simp [List.lookup]

lemma lookup_cons_ne (j idx : Nat) (e : List Int × Nat) (fs : FS) (h : j ≠ idx) :
    ((idx, e) :: fs).lookup j = fs.lookup j := by
  have hb : (j == idx) = false := beq_eq_false_iff_ne.mpr h
  simp [List.lookup, hb]

lemma processChapter_isSome (o : TTSOracle) (bs : Nat) (fs : FS) (idx : Nat)
    (ch : Chapter) (h : (fs.lookup idx).isSome) :
    processChapter o bs fs idx ch = ⟨fs, some (chapterWavName idx), []⟩ := by
  simp [processChapter, h]

lemma processChapter_none_some (o : TTSOracle) (bs : Nat) (fs : FS) (idx : Nat)
    (ch : Chapter) (sampR : List Int × Nat) (h : fs.lookup idx = none)
    (ho : chapterOutcome o bs ch = some sampR) :
    processChapter o bs fs idx ch =
      ⟨(idx, sampR) :: fs, some (chapterWavName idx), batchCalls bs ch⟩ := by
  simp [processChapter, h, ho]

lemma processChapter_none_none (o : TTSOracle) (bs : Nat) (fs : FS) (idx : Nat)
    (ch : Chapter) (h : fs.lookup idx = none)
    (ho : chapterOutcome o bs ch = none) :
    processChapter o bs fs idx ch = ⟨fs, none, batchCalls bs ch⟩ := by
  simp [processChapter, h, ho]

lemma processChapter_lookup_ne (o : TTSOracle) (bs : Nat) (fs : FS) (idx : Nat)
    (ch : Chapter) (j : Nat) (h : j ≠ idx) :
    ((processChapter o bs fs idx ch).fs).lookup j = fs.lookup j := by
  by_cases hs : (fs.lookup idx).isSome
  · rw [processChapter_isSome o bs fs idx ch hs]
  · have hn : fs.lookup idx = none := Option.not_isSome_iff_eq_none.mp hs
    cases ho : chapterOutcome o bs ch with
    | none => rw [processChapter_none_none o bs fs idx ch hn ho]
    | some sampR =>
        rw [processChapter_none_some o bs fs idx ch sampR hn ho]
        exact lookup_cons_ne j idx sampR fs h

lemma synthGo_lookup_lt (o : TTSOracle) (bs : Nat) :
    ∀ (chs : List Chapter) (idx : Nat) (fs : FS) (j : Nat), j < idx →
      ((synthGo o bs idx chs fs).fs).lookup j = fs.lookup j := by
  intro chs
  induction chs with
  | nil => intro idx fs j _; rfl
  | cons ch rest ih =>
      intro idx fs j h
      calc ((synthGo o bs idx (ch :: rest) fs).fs).lookup j
          = ((synthGo o bs (idx + 1) rest (processChapter o bs fs idx ch).fs).fs).lookup j :=
            rfl
        _ = ((processChapter o bs fs idx ch).fs).lookup j := ih (idx + 1) _ j (by omega)
        _ = fs.lookup j := processChapter_lookup_ne o bs fs idx ch j (by omega)

lemma synthGo_resume_mem (o : TTSOracle) (bs : Nat) :
    ∀ (chs : List Chapter) (idx : Nat) (fs : FS) (i : Nat),
      idx ≤ i → i < idx + chs.length → (fs.lookup i).isSome →
      (i, ([] : List (List String))) ∈ (synthGo o bs idx chs fs).callLog ∧
      chapterWavName i ∈ (synthGo o bs idx chs fs).paths ∧
      ((synthGo o bs idx chs fs).fs).lookup i = fs.lookup i := by
  intro chs
  induction chs with
  | nil => intro idx fs i h1 h2 _; simp at h2; omega
  | cons ch rest ih =>
      intro idx fs i h1 h2 h3
      by_cases hi : i = idx
      · subst hi
        have hp := processChapter_isSome o bs fs i ch h3
        simp only [synthGo, hp]
        refine ⟨by simp, by simp, ?_⟩
        exact synthGo_lookup_lt o bs rest (i + 1) fs i (by omega)
      · have hne : i ≠ idx := hi
        have hlook : ((processChapter o bs fs idx ch).fs).lookup i = fs.lookup i :=
          processChapter_lookup_ne o bs fs idx ch i hne
        have h2' : i < (idx + 1) + rest.length := by
          simp [List.length_cons] at h2; omega
        obtain ⟨m1, m2, m3⟩ :=
          ih (idx + 1) (processChapter o bs fs idx ch).fs i (by omega) h2'
            (by rw [hlook]; exact h3)
        simp only [synthGo]
        refine ⟨by simp [m1], ?_, by rw [m3, hlook]⟩
        cases hp : (processChapter o bs fs idx ch).path with
        | none => simpa [hp] using m2
        | some p => simp [hp, m2]

end TTS

namespace TTS

lemma synthGo_restart (o : TTSOracle) (bs : Nat) :
    ∀ (chs1 chs2 : List Chapter) (idx : Nat) (fs : FS),
      (synthGo o bs idx (chs1 ++ chs2) ((synthGo o bs idx chs1 fs).fs)).fs =
        (synthGo o bs idx (chs1 ++ chs2) fs).fs ∧
      (synthGo o bs idx (chs1 ++ chs2) ((synthGo o bs idx chs1 fs).fs)).paths =
        (synthGo o bs idx (chs1 ++ chs2) fs).paths := by
  intro chs1
  induction chs1 with
  | nil => intro chs2 idx fs; exact ⟨rfl, rfl⟩
  | cons ch rest ih =>
      intro chs2 idx fs
      -- the state after the whole prefix run, seen at index idx
      have hKey : ((synthGo o bs (idx + 1) rest (processChapter o bs fs idx ch).fs).fs).lookup idx =
          ((processChapter o bs fs idx ch).fs).lookup idx :=
        synthGo_lookup_lt o bs rest (idx + 1) _ idx (by omega)
      by_cases hs : (fs.lookup idx).isSome
      · have hp := processChapter_isSome o bs fs idx ch hs
        have hsA : (((synthGo o bs (idx + 1) rest
            (processChapter o bs fs idx ch).fs).fs).lookup idx).isSome := by
          rw [hKey, hp]; exact hs
        have hpA := processChapter_isSome o bs
          (synthGo o bs (idx + 1) rest (processChapter o bs fs idx ch).fs).fs idx ch hsA
        obtain ⟨e1, e2⟩ := ih chs2 (idx + 1) (processChapter o bs fs idx ch).fs
        constructor
        · show (synthGo o bs (idx + 1) (rest ++ chs2)
              (processChapter o bs
                (synthGo o bs (idx + 1) rest (processChapter o bs fs idx ch).fs).fs idx ch).fs).fs =
            (synthGo o bs (idx + 1) (rest ++ chs2) (processChapter o bs fs idx ch).fs).fs
          rw [hpA]
          exact e1
        · show (match (processChapter o bs
              (synthGo o bs (idx + 1) rest (processChapter o bs fs idx ch).fs).fs idx ch).path with
              | some p => p :: (synthGo o bs (idx + 1) (rest ++ chs2)
                  (processChapter o bs (synthGo o bs (idx + 1) rest
                    (processChapter o bs fs idx ch).fs).fs idx ch).fs).paths
              | none => (synthGo o bs (idx + 1) (rest ++ chs2)
                  (processChapter o bs (synthGo o bs (idx + 1) rest
                    (processChapter o bs fs idx ch).fs).fs idx ch).fs).paths) =
            (match (processChapter o bs fs idx ch).path with
              | some p => p :: (synthGo o bs (idx + 1) (rest ++ chs2)
                  (processChapter o bs fs idx ch).fs).paths
              | none => (synthGo o bs (idx + 1) (rest ++ chs2)
                  (processChapter o bs fs idx ch).fs).paths)
          simp only [hp] at e2
          rw [hpA, hp]
          simp [e2]
      · have hn : fs.lookup idx = none := Option.not_isSome_iff_eq_none.mp hs
        cases ho : chapterOutcome o bs ch with
        | none =>
            have hp := processChapter_none_none o bs fs idx ch hn ho
            have hnA : ((synthGo o bs (idx + 1) rest
                (processChapter o bs fs idx ch).fs).fs).lookup idx = none := by
              rw [hKey, hp]; exact hn
            have hpA := processChapter_none_none o bs
              (synthGo o bs (idx + 1) rest (processChapter o bs fs idx ch).fs).fs idx ch hnA ho
            obtain ⟨e1, e2⟩ := ih chs2 (idx + 1) (processChapter o bs fs idx ch).fs
            constructor
            · show (synthGo o bs (idx + 1) (rest ++ chs2)
                  (processChapter o bs (synthGo o bs (idx + 1) rest
                    (processChapter o bs fs idx ch).fs).fs idx ch).fs).fs =
                (synthGo o bs (idx + 1) (rest ++ chs2) (processChapter o bs fs idx ch).fs).fs
              rw [hpA]
              exact e1
            · show (match (processChapter o bs
                  (synthGo o bs (idx + 1) rest (processChapter o bs fs idx ch).fs).fs idx ch).path with
                  | some p => p :: (synthGo o bs (idx + 1) (rest ++ chs2)
                      (processChapter o bs (synthGo o bs (idx + 1) rest
                        (processChapter o bs fs idx ch).fs).fs idx ch).fs).paths
                  | none => (synthGo o bs (idx + 1) (rest ++ chs2)
                      (processChapter o bs (synthGo o bs (idx + 1) rest
                        (processChapter o bs fs idx ch).fs).fs idx ch).fs).paths) =
                (match (processChapter o bs fs idx ch).path with
                  | some p => p :: (synthGo o bs (idx + 1) (rest ++ chs2)
                      (processChapter o bs fs idx ch).fs).paths
                  | none => (synthGo o bs (idx + 1) (rest ++ chs2)
                      (processChapter o bs fs idx ch).fs).paths)
              simp only [hp] at e2
              rw [hpA, hp]
              simp [e2]
        | some sampR =>
            have hp := processChapter_none_some o bs fs idx ch sampR hn ho
            have hsA : (((synthGo o bs (idx + 1) rest
                (processChapter o bs fs idx ch).fs).fs).lookup idx).isSome := by
              rw [hKey, hp]
              rw [lookup_cons_self]
              rfl
            have hpA := processChapter_isSome o bs
              (synthGo o bs (idx + 1) rest (processChapter o bs fs idx ch).fs).fs idx ch hsA
            obtain ⟨e1, e2⟩ := ih chs2 (idx + 1) (processChapter o bs fs idx ch).fs
            constructor
            · show (synthGo o bs (idx + 1) (rest ++ chs2)
                  (processChapter o bs (synthGo o bs (idx + 1) rest
                    (processChapter o bs fs idx ch).fs).fs idx ch).fs).fs =
                (synthGo o bs (idx + 1) (rest ++ chs2) (processChapter o bs fs idx ch).fs).fs
              rw [hpA]
              exact e1
            · show (match (processChapter o bs
                  (synthGo o bs (idx + 1) rest (processChapter o bs fs idx ch).fs).fs idx ch).path with
                  | some p => p :: (synthGo o bs (idx + 1) (rest ++ chs2)
                      (processChapter o bs (synthGo o bs (idx + 1) rest
                        (processChapter o bs fs idx ch).fs).fs idx ch).fs).paths
                  | none => (synthGo o bs (idx + 1) (rest ++ chs2)
                      (processChapter o bs (synthGo o bs (idx + 1) rest
                        (processChapter o bs fs idx ch).fs).fs idx ch).fs).paths) =
                (match (processChapter o bs fs idx ch).path with
                  | some p => p :: (synthGo o bs (idx + 1) (rest ++ chs2)
                      (processChapter o bs fs idx ch).fs).paths
                  | none => (synthGo o bs (idx + 1) (rest ++ chs2)
                      (processChapter o bs fs idx ch).fs).paths)
              simp only [hp] at e2
              rw [hpA, hp]
              simp [e2]

end TTS

open TTS in
/-- C3: if the artifact `chapter_{i:04d}.wav` already exists when the run
reaches chapter `i`, that chapter is skipped: its existing path is appended
to the result list, no batch is dispatched for it (its call-log entry is
empty, so neither segmentation nor synthesis runs), and its on-disk
artifact is unchanged; consequently a run restarted after any prefix of
`k` chapters produces exactly the artifact set and path list of an
uninterrupted run. -/
theorem c3_resume_idempotent (o : TTSOracle) (bs : Nat) (fs : FS)
    (chs : List Chapter) (i k : Nat) (hi : i < chs.length)
    (hs : (fs.lookup i).isSome) :
    ((i, ([] : List (List String))) ∈ (synthesiseChapters o bs chs fs).callLog ∧
     chapterWavName i ∈ (synthesiseChapters o bs chs fs).paths ∧
     ((synthesiseChapters o bs chs fs).fs).lookup i = fs.lookup i) ∧
    ((synthesiseChapters o bs chs
        ((synthesiseChapters o bs (chs.take k) fs).fs)).fs =
       (synthesiseChapters o bs chs fs).fs ∧
     (synthesiseChapters o bs chs
        ((synthesiseChapters o bs (chs.take k) fs).fs)).paths =
       (synthesiseChapters o bs chs fs).paths) := by
  constructor
  · exact synthGo_resume_mem o bs chs 0 fs i (by omega) (by omega) hs
  · have h := synthGo_restart o bs (chs.take k) (chs.drop k) 0 fs
    rw [List.take_append_drop] at h
    exact h

open TTS in
/-- Witness for C3: a one-chapter book whose artifact is already on disk,
with a failing engine; the chapter is skipped and the restarted run equals
the uninterrupted one. -/
theorem c3_resume_idempotent_witness :
    (0 < ([⟨"T", "t."⟩] : List Chapter).length) ∧
    ((([(0, ([5], 8))] : FS).lookup 0).isSome) ∧
    ((0, ([] : List (List String))) ∈
        (synthesiseChapters failOracle 4 [⟨"T", "t."⟩] [(0, ([5], 8))]).callLog ∧
      chapterWavName 0 ∈
        (synthesiseChapters failOracle 4 [⟨"T", "t."⟩] [(0, ([5], 8))]).paths ∧
      ((synthesiseChapters failOracle 4 [⟨"T", "t."⟩] [(0, ([5], 8))]).fs).lookup 0 =
        ([(0, ([5], 8))] : FS).lookup 0) ∧
    ((synthesiseChapters failOracle 4 [⟨"T", "t."⟩]
        ((synthesiseChapters failOracle 4 (([⟨"T", "t."⟩] : List Chapter).take 1)
          [(0, ([5], 8))]).fs)).fs =
      (synthesiseChapters failOracle 4 [⟨"T", "t."⟩] [(0, ([5], 8))]).fs) := by
  have h := c3_resume_idempotent failOracle 4 [(0, ([5], 8))] [⟨"T", "t."⟩] 0 1
    (by decide) (by decide)
  exact ⟨by decide, by decide, h.1, h.2.1⟩

namespace TTS

/-! **Chapters with no successful audio are skipped; others are emitted** -/

lemma chapterOutcome_of_empty (o : TTSOracle) (bs : Nat) (ch : Chapter)
    (h : succAudio o bs ch = []) : chapterOutcome o bs ch = none := by
  simp [chapterOutcome, h]

lemma foldl_rate_isSome (results : List (Option (List (List Int) × Nat)))
    (acc : Option Nat) (ha : acc.isSome) :
    (results.foldl
      (fun acc r => match r with | some (_, rate) => some rate | none => acc) acc).isSome := by
  induction results generalizing acc with
  | nil => exact ha
  | cons r t ih =>
      cases r with
      | none => exact ih acc ha
      | some pr =>
          obtain ⟨w, rate⟩ := pr
          exact ih (some rate) rfl

lemma foldl_rate_some_of_flatMap_ne
    (results : List (Option (List (List Int) × Nat)))
    (h : results.flatMap
        (fun r => match r with | some (wavs, _) => wavs | none => []) ≠ []) :
    ∃ rate, results.foldl
        (fun acc r => match r with | some (_, rate) => some rate | none => acc)
        none = some rate := by
  induction results with
  | nil => simp at h
  | cons r t ih =>
      cases r with
      | none =>
          have h' : t.flatMap
              (fun r => match r with | some (wavs, _) => wavs | none => []) ≠ [] := by
            simpa using h
          obtain ⟨rate, hr⟩ := ih h'
          exact ⟨rate, by simpa using hr⟩
      | some pr =>
          obtain ⟨w, rate0⟩ := pr
          have hsome := foldl_rate_isSome t (some rate0) rfl
          obtain ⟨rate, hr⟩ := Option.isSome_iff_exists.mp hsome
          exact ⟨rate, by simpa using hr⟩

lemma chapterOutcome_of_ne (o : TTSOracle) (bs : Nat) (ch : Chapter)
    (h : succAudio o bs ch ≠ []) :
    ∃ rate, chapterOutcome o bs ch = some ((succAudio o bs ch).flatten, rate) := by
  obtain ⟨rate, hr⟩ := foldl_rate_some_of_flatMap_ne (batchResults o bs ch) h
  cases hsa : succAudio o bs ch with
  | nil => exact absurd hsa h
  | cons a rest =>
      refine ⟨rate, ?_⟩
      have hlr : lastRate o bs ch = some rate := hr
      simp [chapterOutcome, hsa, hlr]

lemma processChapter_path_cases (o : TTSOracle) (bs : Nat) (fs : FS) (idx : Nat)
    (ch : Chapter) :
    (processChapter o bs fs idx ch).path = none ∨
    (processChapter o bs fs idx ch).path = some (chapterWavName idx) := by
  by_cases hs : (fs.lookup idx).isSome
  · rw [processChapter_isSome o bs fs idx ch hs]; exact Or.inr rfl
  · have hn : fs.lookup idx = none := Option.not_isSome_iff_eq_none.mp hs
    cases ho : chapterOutcome o bs ch with
    | none => rw [processChapter_none_none o bs fs idx ch hn ho]; exact Or.inl rfl
    | some sampR =>
        rw [processChapter_none_some o bs fs idx ch sampR hn ho]; exact Or.inr rfl

lemma synthGo_paths_range (o : TTSOracle) (bs : Nat) :
    ∀ (chs : List Chapter) (idx : Nat) (fs : FS) (p : String),
      p ∈ (synthGo o bs idx chs fs).paths →
      ∃ j, idx ≤ j ∧ j < idx + chs.length ∧ p = chapterWavName j := by
  intro chs
  induction chs with
  | nil => intro idx fs p h; simp [synthGo] at h
  | cons ch rest ih =>
      intro idx fs p h
      rcases processChapter_path_cases o bs fs idx ch with hp | hp
      · simp only [synthGo, hp] at h
        obtain ⟨j, h1, h2, h3⟩ := ih (idx + 1) _ p h
        refine ⟨j, by omega, ?_, h3⟩
        simp only [List.length_cons]
        omega
      · simp only [synthGo, hp] at h
        rcases List.mem_cons.mp h with h | h
        · refine ⟨idx, Nat.le_refl _, ?_, h⟩
          simp only [List.length_cons]
          omega
        · obtain ⟨j, h1, h2, h3⟩ := ih (idx + 1) _ p h
          refine ⟨j, by omega, ?_, h3⟩
          simp only [List.length_cons]
          omega

lemma synthGo_empty_skip (o : TTSOracle) (bs : Nat) :
    ∀ (chs : List Chapter) (idx : Nat) (fs : FS) (n : Nat) (ch : Chapter),
      chs[n]? = some ch → fs.lookup (idx + n) = none →
      (succAudio o bs ch = [] →
         ((synthGo o bs idx chs fs).fs).lookup (idx + n) = none ∧
         chapterWavName (idx + n) ∉ (synthGo o bs idx chs fs).paths) ∧
      (succAudio o bs ch ≠ [] →
         ∃ rate, chapterOutcome o bs ch = some ((succAudio o bs ch).flatten, rate) ∧
           ((synthGo o bs idx chs fs).fs).lookup (idx + n) =
             some ((succAudio o bs ch).flatten, rate) ∧
           chapterWavName (idx + n) ∈ (synthGo o bs idx chs fs).paths) := by
  intro chs
  induction chs with
  | nil => intro idx fs n ch hn _; simp at hn
  | cons ch0 rest ih =>
      intro idx fs n ch hn hnone
      cases n with
      | zero =>
          simp only [List.getElem?_cons_zero, Option.some.injEq] at hn
          subst hn
          simp only [Nat.add_zero] at hnone ⊢
          constructor
          · intro hempty
            have ho := chapterOutcome_of_empty o bs ch0 hempty
            have hp := processChapter_none_none o bs fs idx ch0 hnone ho
            constructor
            · calc ((synthGo o bs idx (ch0 :: rest) fs).fs).lookup idx
                  = ((synthGo o bs (idx + 1) rest
                      (processChapter o bs fs idx ch0).fs).fs).lookup idx := rfl
                _ = ((processChapter o bs fs idx ch0).fs).lookup idx :=
                    synthGo_lookup_lt o bs rest (idx + 1) _ idx (by omega)
                _ = none := by rw [hp]; exact hnone
            · intro hmem
              simp only [synthGo, hp] at hmem
              obtain ⟨j, hj1, hj2, hj3⟩ := synthGo_paths_range o bs rest (idx + 1) _ _ hmem
              have : idx = j := chapterWavName_inj hj3
              omega
          · intro hne
            obtain ⟨rate, hrate⟩ := chapterOutcome_of_ne o bs ch0 hne
            have hp := processChapter_none_some o bs fs idx ch0
              ((succAudio o bs ch0).flatten, rate) hnone hrate
            refine ⟨rate, hrate, ?_, ?_⟩
            · calc ((synthGo o bs idx (ch0 :: rest) fs).fs).lookup idx
                  = ((synthGo o bs (idx + 1) rest
                      (processChapter o bs fs idx ch0).fs).fs).lookup idx := rfl
                _ = ((processChapter o bs fs idx ch0).fs).lookup idx :=
                    synthGo_lookup_lt o bs rest (idx + 1) _ idx (by omega)
                _ = some ((succAudio o bs ch0).flatten, rate) := by
                    rw [hp]
                    exact lookup_cons_self idx ((succAudio o bs ch0).flatten, rate) fs
            · simp only [synthGo, hp]
              exact List.mem_cons_self _ _
      | succ m =>
          have hne0 : idx + (m + 1) ≠ idx := by omega
          have hlook : ((processChapter o bs fs idx ch0).fs).lookup (idx + (m + 1)) =
              fs.lookup (idx + (m + 1)) :=
            processChapter_lookup_ne o bs fs idx ch0 _ hne0
          have hn' : rest[m]? = some ch := by simpa using hn
          have harg : (idx + 1) + m = idx + (m + 1) := by omega
          have hnone' : ((processChapter o bs fs idx ch0).fs).lookup ((idx + 1) + m) = none := by
            rw [harg, hlook]; exact hnone
          have H := ih (idx + 1) (processChapter o bs fs idx ch0).fs m ch hn' hnone'
          rw [harg] at H
          constructor
          · intro hempty
            obtain ⟨hl, hnm⟩ := H.1 hempty
            constructor
            · calc ((synthGo o bs idx (ch0 :: rest) fs).fs).lookup (idx + (m + 1))
                  = ((synthGo o bs (idx + 1) rest
                      (processChapter o bs fs idx ch0).fs).fs).lookup (idx + (m + 1)) := rfl
                _ = none := hl
            · intro hmem
              rcases processChapter_path_cases o bs fs idx ch0 with hp | hp
              · simp only [synthGo, hp] at hmem
                exact hnm hmem
              · simp only [synthGo, hp] at hmem
                rcases List.mem_cons.mp hmem with he | he
                · exact hne0 (chapterWavName_inj he)
                · exact hnm he
          · intro hne
            obtain ⟨rate, h1, h2, h3⟩ := H.2 hne
            refine ⟨rate, h1, h2, ?_⟩
            rcases processChapter_path_cases o bs fs idx ch0 with hp | hp
            · simp only [synthGo, hp]; exact h3
            · simp only [synthGo, hp]; exact List.mem_cons_of_mem _ h3

end TTS

open TTS in
/-- C4: consider a chapter (index `i`, not already on disk) in a run of
`synthesise_chapters`.  If no batch contributes audio, the chapter is
skipped entirely: no artifact is written for it and its path is absent from
the returned list (so it contributes no marker, markers being one per
returned path).  If some audio succeeds, the chapter is emitted: the
artifact written is exactly the successful batches' wavs concatenated in
dispatch order, and its path is in the returned list. -/
theorem c4_empty_chapter_skipped (o : TTSOracle) (bs : Nat) (chs : List Chapter)
    (fs : FS) (i : Nat) (ch : Chapter) (hch : chs[i]? = some ch)
    (hnew : fs.lookup i = none) :
    (succAudio o bs ch = [] →
       ((synthesiseChapters o bs chs fs).fs).lookup i = none ∧
       chapterWavName i ∉ (synthesiseChapters o bs chs fs).paths) ∧
    (succAudio o bs ch ≠ [] →
       ∃ rate, chapterOutcome o bs ch = some ((succAudio o bs ch).flatten, rate) ∧
         ((synthesiseChapters o bs chs fs).fs).lookup i =
           some ((succAudio o bs ch).flatten, rate) ∧
         chapterWavName i ∈ (synthesiseChapters o bs chs fs).paths) := by
  have H := synthGo_empty_skip o bs chs 0 fs i ch hch (by simpa using hnew)
  simpa using H

open TTS in
/-- Witness for C4: a fresh one-chapter run whose engine always fails; the
chapter is dropped from disk and from the returned path list. -/
theorem c4_empty_chapter_skipped_witness :
    (([⟨"T", "t."⟩] : List Chapter)[0]? = some ⟨"T", "t."⟩) ∧
    (([] : FS).lookup 0 = none) ∧
    (succAudio failOracle 4 ⟨"T", "t."⟩ = []) ∧
    (((synthesiseChapters failOracle 4 [⟨"T", "t."⟩] []).fs).lookup 0 = none ∧
     chapterWavName 0 ∉ (synthesiseChapters failOracle 4 [⟨"T", "t."⟩] []).paths) := by
  have h := c4_empty_chapter_skipped failOracle 4 [⟨"T", "t."⟩] [] 0 ⟨"T", "t."⟩
    (by decide) (by decide)
  exact ⟨by decide, by decide, by decide, h.1 (by decide)⟩

namespace TTS

/-! **Word sequences are invariant under the segmenter's operations** -/

lemma wordsGo_append_ws (c : Char) (hc : isWS c = true) :
    ∀ (a b cur : List Char),
      wordsGo (a ++ c :: b) cur = wordsGo a cur ++ wordsGo b [] := by
  intro a
  induction a with
  | nil =>
      intro b cur
      by_cases h : cur = [] <;> simp [wordsGo, hc, h]
  | cons x a ih =>
      intro b cur
      by_cases hx : isWS x = true
      · by_cases h : cur = [] <;> simp [wordsGo, hx, h, ih]
      · simp [wordsGo, hx, ih]

lemma wordsOfL_all_ws (w : List Char) (h : ∀ x ∈ w, isWS x = true) :
    wordsOfL w = [] := by
  induction w with
  | nil => rfl
  | cons x t ih =>
      have hx := h x (List.mem_cons_self x t)
      have ht := ih fun y hy => h y (List.mem_cons_of_mem _ hy)
      simpa [wordsOfL, wordsGo, hx] using ht

lemma wordsOfL_append_all_ws (a w : List Char) (h : ∀ x ∈ w, isWS x = true) :
    wordsOfL (a ++ w) = wordsOfL a := by
  cases w with
  | nil => simp
  | cons c w' =>
      have hc := h c (List.mem_cons_self c w')
      have hw : wordsOfL w' = [] :=
        wordsOfL_all_ws w' fun y hy => h y (List.mem_cons_of_mem _ hy)
      calc wordsOfL (a ++ c :: w')
          = wordsGo a [] ++ wordsGo w' [] := wordsGo_append_ws c hc a w' []
        _ = wordsOfL a ++ wordsOfL w' := rfl
        _ = wordsOfL a := by rw [hw, List.append_nil]

lemma wordsOfL_dropWhile (l : List Char) :
    wordsOfL (l.dropWhile isWS) = wordsOfL l := by
  induction l with
  | nil => rfl
  | cons c t ih =>
      by_cases hc : isWS c = true
      · rw [List.dropWhile_cons]
        simp only [hc, if_true]
        rw [ih]
        simp [wordsOfL, wordsGo, hc]
      · rw [List.dropWhile_cons]
        simp [hc]

lemma wordsOfL_stripChars (l : List Char) :
    wordsOfL (stripChars l) = wordsOfL l := by
  rw [stripChars]
  set m := l.dropWhile isWS with hm
  have h1 : m.reverse = m.reverse.takeWhile isWS ++ m.reverse.dropWhile isWS :=
    (List.takeWhile_append_dropWhile isWS m.reverse).symm
  have hdecomp : m = (m.reverse.dropWhile isWS).reverse ++ (m.reverse.takeWhile isWS).reverse := by
    calc m = m.reverse.reverse := (List.reverse_reverse m).symm
      _ = (m.reverse.takeWhile isWS ++ m.reverse.dropWhile isWS).reverse := by rw [← h1]
      _ = (m.reverse.dropWhile isWS).reverse ++ (m.reverse.takeWhile isWS).reverse := by
          rw [List.reverse_append]
  have hws : ∀ x ∈ (m.reverse.takeWhile isWS).reverse, isWS x = true := by
    intro x hx
    rw [List.mem_reverse] at hx
    exact List.mem_takeWhile_imp hx
  calc wordsOfL ((m.reverse.dropWhile isWS).reverse)
      = wordsOfL ((m.reverse.dropWhile isWS).reverse ++ (m.reverse.takeWhile isWS).reverse) :=
        (wordsOfL_append_all_ws _ _ hws).symm
    _ = wordsOfL m := by rw [← hdecomp]
    _ = wordsOfL l := wordsOfL_dropWhile l

lemma wordsOfL_joinSp (us : List (List Char)) :
    wordsOfL (joinSp us) = us.flatMap wordsOfL := by
  induction us with
  | nil => rfl
  | cons u rest ih =>
      cases rest with
      | nil => simp [joinSp, wordsOfL]
      | cons v rest' =>
          have hws : isWS ' ' = true := by decide
          calc wordsOfL (joinSp (u :: v :: rest'))
              = wordsOfL (u ++ ' ' :: joinSp (v :: rest')) := rfl
            _ = wordsGo u [] ++ wordsGo (joinSp (v :: rest')) [] :=
                wordsGo_append_ws ' ' hws u _ []
            _ = wordsOfL u ++ wordsOfL (joinSp (v :: rest')) := rfl
            _ = wordsOfL u ++ (v :: rest').flatMap wordsOfL := by rw [ih]
            _ = (u :: v :: rest').flatMap wordsOfL := by simp

lemma reSplitGo_words (isEnd : Char → Bool) :
    ∀ (rem cur : List Char) (splitting : Bool),
      (reSplitGo isEnd rem cur splitting).flatMap wordsOfL =
        if splitting then wordsOfL rem else wordsOfL (cur.reverse ++ rem) := by
  intro rem
  induction rem with
  | nil =>
      intro cur splitting
      cases splitting <;> simp [reSplitGo, wordsOfL]
  | cons c rest ih =>
      intro cur splitting
      cases splitting with
      | true =>
          by_cases hc : isWS c = true
          · have hstep : reSplitGo isEnd (c :: rest) cur true =
                reSplitGo isEnd rest cur true := by
              simp [reSplitGo, hc]
            rw [hstep, ih cur true]
            simp [wordsOfL, wordsGo, hc]
          · have hstep : reSplitGo isEnd (c :: rest) cur true =
                reSplitGo isEnd rest [c] false := by
              simp [reSplitGo, hc]
            rw [hstep, ih [c] false]
            simp
      | false =>
          cases cur with
          | nil =>
              have hstep : reSplitGo isEnd (c :: rest) [] false =
                  reSplitGo isEnd rest [c] false := by
                simp [reSplitGo]
              rw [hstep, ih [c] false]
              simp
          | cons h t =>
              by_cases hcond : (isWS c && isEnd h) = true
              · have hstep : reSplitGo isEnd (c :: rest) (h :: t) false =
                    (h :: t).reverse :: reSplitGo isEnd rest [] true := by
                  simp [reSplitGo, hcond]
                have hc : isWS c = true := by
                  cases hw : isWS c
                  · rw [hw] at hcond; simp at hcond
                  · rfl
                have hsplit := wordsGo_append_ws c hc (h :: t).reverse rest []
                rw [hstep, List.flatMap_cons, ih [] true, if_pos rfl]
                exact hsplit.symm
              · have hstep : reSplitGo isEnd (c :: rest) (h :: t) false =
                    reSplitGo isEnd rest (c :: h :: t) false := by
                  simp [reSplitGo, hcond]
                rw [hstep, ih (c :: h :: t) false]
                simp [List.append_assoc]

lemma reSplit_words (isEnd : Char → Bool) (l : List Char) :
    (reSplit isEnd l).flatMap wordsOfL = wordsOfL l := by
  have h := reSplitGo_words isEnd l [] false
  simpa [reSplit] using h

lemma flatMap_flatten_eq {α β : Type} (L : List (List α)) (f : α → List β) :
    L.flatten.flatMap f = L.flatMap fun l => l.flatMap f := by
  induction L with
  | nil => rfl
  | cons l L ih => simp [ih]

lemma flatMap_flatMap_eq {α β γ : Type} (l : List α) (g : α → List β) (f : β → List γ) :
    (l.flatMap g).flatMap f = l.flatMap fun x => (g x).flatMap f := by
  induction l with
  | nil => rfl
  | cons x t ih => simp [ih]

end TTS

namespace TTS

/-! **The buffered chunks partition the unit sequence, in order** -/

lemma pushUnit_flatten (maxChars : Nat) (st : SplitState) (u : List Char) :
    ((pushUnit maxChars st u).1).flatten ++ (pushUnit maxChars st u).2.1 =
      st.1.flatten ++ st.2.1 ++ [u] := by
  obtain ⟨chunks, buf, len⟩ := st
  simp only [pushUnit]
  by_cases hcond : len + u.length > maxChars ∧ buf ≠ []
  · rw [if_pos hcond]
    simp [List.append_assoc]
  · rw [if_neg hcond]
    simp [List.append_assoc]

lemma addClause_flatten (maxChars : Nat) (st : SplitState) (cl : List Char) :
    ((addClause maxChars st cl).1).flatten ++ (addClause maxChars st cl).2.1 =
      st.1.flatten ++ st.2.1 ++
        (if stripChars cl = [] then [] else [stripChars cl]) := by
  rw [addClause]
  by_cases h : stripChars cl = []
  · simp [h]
  · rw [if_neg h, if_neg h]
    exact pushUnit_flatten maxChars st (stripChars cl)

lemma foldl_addClause_flatten (maxChars : Nat) (cls : List (List Char)) :
    ∀ st : SplitState,
      ((cls.foldl (addClause maxChars) st).1).flatten ++
          (cls.foldl (addClause maxChars) st).2.1 =
        st.1.flatten ++ st.2.1 ++
          cls.flatMap (fun cl => if stripChars cl = [] then [] else [stripChars cl]) := by
  induction cls with
  | nil => intro st; simp
  | cons cl t ih =>
      intro st
      rw [List.foldl_cons, ih, addClause_flatten]
      simp [List.append_assoc]

lemma filterMap_strip_eq_flatMap (cls : List (List Char)) :
    cls.filterMap (fun cl => let c := stripChars cl; if c = [] then none else some c) =
      cls.flatMap (fun cl => if stripChars cl = [] then [] else [stripChars cl]) := by
  induction cls with
  | nil => rfl
  | cons cl t ih =>
      by_cases h : stripChars cl = [] <;> simp [List.filterMap_cons, h, ih]

lemma addSent_flatten (maxChars : Nat) (st : SplitState) (sent : List Char) :
    ((addSent maxChars st sent).1).flatten ++ (addSent maxChars st sent).2.1 =
      st.1.flatten ++ st.2.1 ++ unitsOfSent maxChars sent := by
  rw [addSent, unitsOfSent]
  by_cases h1 : stripChars sent = []
  · simp [h1]
  · rw [if_neg h1, if_neg h1]
    by_cases h2 : (stripChars sent).length > maxChars
    · rw [if_pos h2, if_pos h2]
      rw [foldl_addClause_flatten, filterMap_strip_eq_flatMap]
      by_cases hb : st.2.1 ≠ []
      · rw [if_pos hb]
        simp [List.append_assoc]
      · rw [if_neg hb]
    · rw [if_neg h2, if_neg h2]
      exact pushUnit_flatten maxChars st (stripChars sent)

lemma splitChunksU_flatten (text : List Char) (maxChars : Nat) :
    (splitChunksU text maxChars).flatten = unitsOf text maxChars := by
  have main : ∀ (sents : List (List Char)) (st : SplitState),
      ((sents.foldl (addSent maxChars) st).1).flatten ++
          (sents.foldl (addSent maxChars) st).2.1 =
        st.1.flatten ++ st.2.1 ++ sents.flatMap (unitsOfSent maxChars) := by
    intro sents
    induction sents with
    | nil => intro st; simp
    | cons s t ih =>
        intro st
        rw [List.foldl_cons, ih, addSent_flatten]
        simp [List.append_assoc]
  have h := main (reSplit isSentEnd text) ([], [], 0)
  rw [splitChunksU, unitsOf]
  by_cases hb : ((reSplit isSentEnd text).foldl (addSent maxChars) ([], [], 0)).2.1 = []
  · rw [if_pos hb]
    rw [hb, List.append_nil] at h
    simpa using h
  · rw [if_neg hb]
    simpa [List.append_assoc] using h

end TTS

namespace TTS

lemma wordsOfL_of_strip_nil (l : List Char) (h : stripChars l = []) :
    wordsOfL l = [] := by
  have := wordsOfL_stripChars l
  rw [h] at this
  exact this.symm

lemma unitsOfSent_words (maxChars : Nat) (sent : List Char) :
    (unitsOfSent maxChars sent).flatMap wordsOfL = wordsOfL sent := by
  rw [unitsOfSent]
  by_cases h1 : stripChars sent = []
  · rw [if_pos h1]
    rw [wordsOfL_of_strip_nil sent h1]
    rfl
  · rw [if_neg h1]
    by_cases h2 : (stripChars sent).length > maxChars
    · rw [if_pos h2, filterMap_strip_eq_flatMap, flatMap_flatMap_eq]
      have hpt : ∀ cl : List Char,
          ((if stripChars cl = [] then [] else [stripChars cl]) : List (List Char)).flatMap
              wordsOfL = wordsOfL cl := by
        intro cl
        by_cases hcl : stripChars cl = []
        · rw [if_pos hcl]
          rw [wordsOfL_of_strip_nil cl hcl]
          rfl
        · rw [if_neg hcl]
          simp [wordsOfL_stripChars]
      have hfe : (fun cl => ((if stripChars cl = [] then [] else [stripChars cl]) :
          List (List Char)).flatMap wordsOfL) = fun cl => wordsOfL cl := funext hpt
      rw [hfe, reSplit_words, wordsOfL_stripChars]
    · rw [if_neg h2]
      simp [wordsOfL_stripChars]

lemma unitsOf_words (text : List Char) (maxChars : Nat) :
    (unitsOf text maxChars).flatMap wordsOfL = wordsOfL text := by
  rw [unitsOf, flatMap_flatMap_eq]
  have hfe : (fun p => (unitsOfSent maxChars p).flatMap wordsOfL) =
      fun p => wordsOfL p := funext (unitsOfSent_words maxChars)
  rw [hfe, reSplit_words]

lemma flatMap_map_eq {α β γ : Type} (l : List α) (g : α → β) (f : β → List γ) :
    (l.map g).flatMap f = l.flatMap fun x => f (g x) := by
  induction l with
  | nil => rfl
  | cons x t ih => simp [ih]

end TTS

open TTS in
/-- C6: segmentation preserves content and order up to whitespace: the
whitespace-delimited word sequence of the single-space join of all segments
returned by `_split_text` is exactly the word sequence of the original
text — nothing is dropped, truncated, or reordered, and only whitespace is
normalised. -/
theorem c6_segments_preserve_words (text : List Char) (maxChars : Nat) :
    wordsOfL (joinSp (splitTextL text maxChars)) = wordsOfL text := by
  rw [splitTextL, wordsOfL_joinSp, flatMap_map_eq]
  have hfe : (fun ch => wordsOfL (joinSp ch)) =
      fun ch : List (List Char) => ch.flatMap wordsOfL := funext wordsOfL_joinSp
  rw [hfe, ← flatMap_flatten_eq, splitChunksU_flatten, unitsOf_words]
